import Mathlib

/-!
Verification development for the forex monitoring agent (`forex_agent.py`).

The Python source is shallowly embedded: pure logic becomes Lean functions,
the priority queue (`heapq` over `(priority, time.time(), event)` triples)
is embedded as the actual array-based sift algorithms with Python's partial
tuple comparison (comparing two distinct event dicts raises `TypeError`,
modelled as `Except.error`), the processor loop becomes explicit state
passing in the `Except` monad (an uncaught exception is `Except.error`),
and the cooperative concurrency of `asyncio.gather` becomes a step
relation on a system state.  Machine floats produced by `time.time()` and
the price simulation only ever flow through `+`, `-`, `abs`, `<` and `=`
comparisons here, so they are modelled as rationals.
-/

namespace ForexAgent

/-- Event priority table, from `ForexAgent.EVENT_PRIORITIES`
(`emergency_price=1, breaking_news=1, price_spike=2, news=3, status_update=4`). -/
def EVENT_PRIORITIES : List (String × Nat) :=
  [("emergency_price", 1), ("breaking_news", 1), ("price_spike", 2),
   ("news", 3), ("status_update", 4)]

/-- Threshold table from `ForexAgent.__init__`: `alert_thresholds`
(`emergency_price: 1.5`, `price_spike: 0.8`, both in percent). -/
def alert_thresholds_emergency : ℚ := 3/2

/-- Threshold `alert_thresholds["price_spike"] = 0.8`. -/
def alert_thresholds_price_spike : ℚ := 4/5

/-- Monitored currency pairs, from `ForexAgent.__init__`. -/
def monitored_pairs : List String :=
  ["EUR/USD", "USD/JPY", "GBP/USD", "AUD/USD", "USD/KES"]

/-- Per-pair state dict created in `ForexAgent.__init__` for each monitored
pair: `{"price": random, "last_alert": 0, "volatility": 0.1, "history": []}`.
The rolling `history` list is not modelled (it only feeds the volatility
statistic, which we keep as an abstract field). -/
structure PairState where
  price : ℚ
  last_alert : ℚ
  volatility : ℚ
deriving DecidableEq

/-- Initial `market_state`: one entry per monitored pair, `last_alert = 0`,
`volatility = 0.1`; the initial price is drawn from `random.uniform`, so it
is a parameter here. -/
def initial_market_state (priceOf : String → ℚ) : List (String × PairState) :=
  monitored_pairs.map fun p => (p, { price := priceOf p, last_alert := 0, volatility := 1/10 })

/-- Sample headlines of `news_monitor` (headline, pair). -/
def sample_news : List (String × String) :=
  [("ECB announces emergency rate hike", "EUR/USD"),
   ("US inflation exceeds forecasts", "USD/JPY"),
   ("Political crisis deepens in the UK", "GBP/USD"),
   ("Bank of Japan intervenes in FX market", "USD/JPY"),
   ("Fed signals pause in rate hikes", "EUR/USD"),
   ("Geopolitical tensions escalate", "USD/CHF"),
   ("Natural disaster impacts major economy", "AUD/USD"),
   ("Central Bank of Kenya adjusts rates", "USD/KES"),
   ("South African economic outlook worsens", "USD/ZAR")]

/-- Significant-movement detection from `market_data_stream` (lines 121-134):
`abs_change = abs(change * 100)`; an `emergency_price` event is enqueued when
it exceeds the emergency threshold, else a `price_spike` event when it exceeds
the spike threshold, else nothing.  `change` is the fractional price change of
the tick, so `abs (change * 100)` is the absolute percent change.  The result
carries the priority the event is enqueued with
(`EVENT_PRIORITIES[event_type]`; both keys are present in the table). -/
def priceTickEvent (change : ℚ) : Option (Nat × String) :=
  let abs_change := |change * 100|
  let event_type : Option String :=
    if abs_change > alert_thresholds_emergency then some "emergency_price"
    else if abs_change > alert_thresholds_price_spike then some "price_spike"
    else none
  match event_type with
  | some t =>
    match EVENT_PRIORITIES.lookup t with
    | some p => some (p, t)
    | none => none
  | none => none

/-- Time-of-day gate `is_market_hours` (lines 275-279): the UTC hour must be
in `[0,8) ∪ [7,17) ∪ [12,22)`. -/
def is_market_hours (hour : Nat) : Bool :=
  (decide (0 ≤ hour) && decide (hour < 8)) ||
  (decide (7 ≤ hour) && decide (hour < 17)) ||
  (decide (12 ≤ hour) && decide (hour < 22))

/-- Environment configuration read by `maybe_trigger_alert` via `os.getenv`:
`none` models an unset variable; Python truthiness also rejects the empty
string. -/
structure ATConfig where
  username : Option String
  api_key : Option String
  your_phone_number : Option String
  virtual_number : Option String
deriving DecidableEq

/-- Python truthiness of an `os.getenv` result: unset (`None`) and the empty
string are falsy. -/
def truthy : Option String → Bool
  | none => false
  | some s => !(s == "")

/-- Observable outcome of one `maybe_trigger_alert` call, tagged with which
log line it produces; the three suppression/skip branches print distinct
messages in the source. -/
inductive AlertResult
  | cooldownSuppressed
  | outsideMarketHours
  | notConfigured
  | callPlaced (callFrom callTo : String)
  | callErrored (callFrom callTo : String)
deriving DecidableEq

/-- Alert gate and dispatch, from `maybe_trigger_alert` (lines 236-273),
for one pair's state dict.  `now` is `time.time()`, `hour` the current UTC
hour, `callOutcome` the behaviour of the external `self.voice.call`
collaborator (including the `call_id` extraction inside the same `try`):
`.ok` if it returns, `.error` if it raises.  On success, and only on
success, `state["last_alert"]` is set to `now` (the update statement sits
after the call inside the `try` block); the `except` branch only logs.
The `title`/`message` arguments only feed `print` calls and are omitted. -/
def maybe_trigger_alert (state : PairState) (now : ℚ) (hour : Nat)
    (cfg : ATConfig) (callOutcome : Except Unit Unit) : AlertResult × PairState :=
  if now - state.last_alert < 300 then
    (.cooldownSuppressed, state)
  else if !(is_market_hours hour) then
    (.outsideMarketHours, state)
  else if !(truthy cfg.username && truthy cfg.api_key && truthy cfg.your_phone_number) then
    (.notConfigured, state)
  else
    let callFrom := cfg.virtual_number.getD "+254711XXXYYY"
    let callTo := cfg.your_phone_number.getD ""
    match callOutcome with
    | .ok _ => (.callPlaced callFrom callTo, { state with last_alert := now })
    | .error _ => (.callErrored callFrom callTo, state)

/-- Selector: did `maybe_trigger_alert` reach the external `voice.call`
(an outbound call attempt), successful or not? -/
def attempted : AlertResult → Bool
  | .callPlaced _ _ => true
  | .callErrored _ _ => true
  | _ => false

/-- Events carried through the queue: the two dict shapes built by
`market_data_stream` (`{"type": "price", "pair", "change", "price"}`) and
`news_monitor` (`{"type": "news", "headline", "pair"}`). -/
inductive AgentEvent
  | price (pair : String) (change : ℚ) (price : ℚ)
  | news (pair : String) (headline : String)
deriving DecidableEq

/-- Pair field of an event (`event["pair"]`). -/
def eventPair : AgentEvent → String
  | .price p _ _ => p
  | .news p _ => p

/-- Dict indexing `self.market_state[pair]`: raises `KeyError` when the pair
has no entry. -/
def lookupState (ms : List (String × PairState)) (pair : String) :
    Except Unit PairState :=
  match ms.lookup pair with
  | some st => .ok st
  | none => .error ()

/-- In-place mutation of the pair's state dict (`state["last_alert"] = now`
mutates the dict stored in `market_state`): replace the value at an existing
key, leaving the key set unchanged. -/
def setState (ms : List (String × PairState)) (pair : String) (st : PairState) :
    List (String × PairState) :=
  match ms with
  | [] => []
  | (k, v) :: rest =>
    if k = pair then (k, st) :: rest else (k, v) :: setState rest pair st

/-- Agent-level `maybe_trigger_alert`: its first statement is
`state = self.market_state[pair]` (a fallible dict lookup), then the gate
and dispatch of `maybe_trigger_alert` run on that state and the mutated
dict is stored back. -/
def agent_maybe_trigger_alert (ms : List (String × PairState)) (pair : String)
    (now : ℚ) (hour : Nat) (cfg : ATConfig) (callOutcome : Except Unit Unit) :
    Except Unit (AlertResult × List (String × PairState)) :=
  match lookupState ms pair with
  | .error e => .error e
  | .ok st =>
    let r := maybe_trigger_alert st now hour cfg callOutcome
    .ok (r.1, setState ms pair r.2)

/-- Per-iteration external behaviour: the result of the
`generate_ai_response` collaborator for this event (`.error` models the
model/tokenizer raising; `generate_ai_response` itself contains no
`try`/`except`), the wall clock and UTC hour at gate time, and the
behaviour of the `voice.call` collaborator. -/
structure IterOracle where
  analysisOutcome : Except Unit String
  now : ℚ
  hour : Nat
  callOutcome : Except Unit Unit

/-- Body of one `event_processor` iteration inside `async with
resource_lock` (lines 177-181): dispatch on `event["type"]` to
`handle_price_event` / `handle_news_event`.  Both handlers call
`generate_ai_response` with no exception handling (an `.error` propagates)
and then `maybe_trigger_alert`; `handle_price_event` additionally reads
`self.market_state[pair]` first to build its prompt. -/
def process_one (ms : List (String × PairState)) (ev : AgentEvent)
    (o : IterOracle) (cfg : ATConfig) :
    Except Unit (AlertResult × List (String × PairState)) :=
  match ev with
  | .price pair _ _ =>
    match lookupState ms pair with
    | .error e => .error e
    | .ok _ =>
      match o.analysisOutcome with
      | .error e => .error e
      | .ok _ => agent_maybe_trigger_alert ms pair o.now o.hour cfg o.callOutcome
  | .news pair _ =>
    match o.analysisOutcome with
    | .error e => .error e
    | .ok _ => agent_maybe_trigger_alert ms pair o.now o.hour cfg o.callOutcome

/-- The `event_processor` loop (lines 169-184) run over a finite script of
dequeued events with their external behaviours.  The loop body has no
`try`/`except`, so an `.error` escaping `process_one` unwinds past the
per-event iteration and terminates the loop (remaining events are never
processed); otherwise the loop records the outcome and continues. -/
def event_processor_loop (cfg : ATConfig) :
    List (String × PairState) → List (AgentEvent × IterOracle) →
    Except Unit (List AlertResult × List (String × PairState))
  | ms, [] => .ok ([], ms)
  | ms, (ev, o) :: rest =>
    match process_one ms ev o cfg with
    | .error e => .error e
    | .ok (res, ms') =>
      match event_processor_loop cfg ms' rest with
      | .error e => .error e
      | .ok (results, msF) => .ok (res :: results, msF)

/-! Concurrency model for the `asyncio.gather` of the four coroutines
(`market_data_stream`, `news_monitor`, `event_processor`,
`system_monitor`).  The producers and the monitor never touch
`resource_lock` in the source; only `event_processor` acquires it, via
`async with`, around the analyze/gate/dispatch section.  `lockHolders` is
the set (as a list) of execution contexts currently holding the lock. -/

/-- Execution contexts started by `ForexAgent.run`. -/
inductive Ctx
  | priceProducer
  | newsProducer
  | processor
  | systemMonitor
deriving DecidableEq

/-- Processor control location within its loop. -/
inductive ProcPhase
  | waitingForEvent
  | analyzing
  | dispatching
  | throttling
deriving DecidableEq

/-- System state for the concurrency model: queued-event count, processor
phase, and the contexts holding `resource_lock`. -/
structure AgentSys where
  queueDepth : Nat
  procPhase : ProcPhase
  lockHolders : List Ctx
deriving DecidableEq

/-- Startup state of `ForexAgent.run`: empty queue, processor about to wait,
lock free. -/
def initSys : AgentSys := { queueDepth := 0, procPhase := .waitingForEvent, lockHolders := [] }

/-- Interleaving of the four coroutines.  `market_data_stream` and
`news_monitor` only push (their bodies contain no lock operation);
`system_monitor` only reads; `event_processor` pops an event and enters
`async with resource_lock` (acquire blocks unless the lock is free),
analyzes, gate-checks/dispatches, leaves the `async with` (release), then
sleeps 0.1s before waiting again. -/
inductive SysStep : AgentSys → AgentSys → Prop
  | pricePush (s : AgentSys) :
      SysStep s { s with queueDepth := s.queueDepth + 1 }
  | newsPush (s : AgentSys) :
      SysStep s { s with queueDepth := s.queueDepth + 1 }
  | monitorReport (s : AgentSys) : SysStep s s
  | procAcquire (s : AgentSys) (hq : 0 < s.queueDepth)
      (hw : s.procPhase = .waitingForEvent) (hl : s.lockHolders = []) :
      SysStep s { queueDepth := s.queueDepth - 1, procPhase := .analyzing,
                  lockHolders := [.processor] }
  | procAnalyzeDone (s : AgentSys) (h : s.procPhase = .analyzing) :
      SysStep s { s with procPhase := .dispatching }
  | procRelease (s : AgentSys) (h : s.procPhase = .dispatching)
      (hl : s.lockHolders = [.processor]) :
      SysStep s { s with procPhase := .throttling, lockHolders := [] }
  | procThrottleDone (s : AgentSys) (h : s.procPhase = .throttling) :
      SysStep s { s with procPhase := .waitingForEvent }

/-- Reachability from the startup state by any interleaving. -/
def SysReachable (s : AgentSys) : Prop := Relation.ReflTransGen SysStep initSys s

/-- Helper invariant for the concurrency model: the lock is either free or
held by the processor alone. -/
def LockInv (s : AgentSys) : Prop :=
  s.lockHolders = [] ∨ s.lockHolders = [Ctx.processor]

/-! Embedding of `PriorityEventQueue` (lines 21-36).  `put` stores
`(priority, time.time(), event)` in a CPython `heapq` (a binary min-heap in
a flat list); `get` pops the heap root and projects the event.  The
wall-clock value is an input here.  CPython compares the tuples
lexicographically, deciding `!=` elementwise first: priorities, then
timestamps, and only if both tie does it try `<` on the event dicts, which
raises `TypeError` for distinct dicts (`Except.error`).  The sift routines
below are transcribed from CPython's `heapq._siftdown` / `heapq._siftup`;
their loops are driven by a fuel argument that strictly dominates the loop
count at every call site (`_siftdown` walks `pos` strictly down toward 0,
`_siftup` walks `pos` strictly up toward `endpos`), so with the fuel used
in `heappush`/`heappop` the branches taken agree exactly with CPython's. -/

/-- Queue entry `(priority, time.time(), event)` for an event payload `E`. -/
abbrev QEntry (E : Type) : Type := Nat × ℚ × E

/-- Ordering key of an entry: the `(priority, timestamp)` prefix that admits
a total order. -/
def qKey {E : Type} (a : QEntry E) : Nat × ℚ := (a.1, a.2.1)

/-- Strict lexicographic order on `(priority, timestamp)` keys. -/
def keyLt (x y : Nat × ℚ) : Prop := x.1 < y.1 ∨ (x.1 = y.1 ∧ x.2 < y.2)

/-- Reflexive closure of `keyLt`. -/
def keyLe (x y : Nat × ℚ) : Prop := keyLt x y ∨ x = y

instance (x y : Nat × ℚ) : Decidable (keyLt x y) := by
  unfold keyLt; exact inferInstance

instance (x y : Nat × ℚ) : Decidable (keyLe x y) := by
  unfold keyLe; exact inferInstance

/-- CPython comparison of two queue entries: lexicographic on the tuple,
using `!=` to skip equal components; distinct event dicts have no `<`, so a
full `(priority, timestamp)` tie between entries holding different events
raises `TypeError`, and a tie between equal tuples yields `False`. -/
def entLt {E : Type} [DecidableEq E] (a b : QEntry E) : Except Unit Bool :=
  if a.1 ≠ b.1 then .ok (decide (a.1 < b.1))
  else if a.2.1 ≠ b.2.1 then .ok (decide (a.2.1 < b.2.1))
  else if a.2.2 ≠ b.2.2 then .error ()
  else .ok false

/-- CPython `heapq._siftdown(heap, startpos, pos)`: bubble `newitem` up from
`pos` toward `startpos`, shifting larger parents down, and finally store
`newitem`.  `fuel` bounds the loop; every call keeps `pos ≤ fuel`, and since
`pos` strictly decreases, fuel never runs out before the loop exits (at
fuel 0 the invariant forces `pos = 0`, where the loop guard is false, so
the 0-branch coincides with CPython's exit). -/
def siftdownGo {E : Type} [DecidableEq E] (startpos : Nat) (newitem : QEntry E) :
    Nat → List (QEntry E) → Nat → Except Unit (List (QEntry E))
  | 0, heap, pos => .ok (heap.set pos newitem)
  | fuel + 1, heap, pos =>
    if startpos < pos then
      match heap[(pos - 1) / 2]? with
      | none => .error ()
      | some parent =>
        match entLt newitem parent with
        | .error e => .error e
        | .ok true => siftdownGo startpos newitem fuel (heap.set pos parent) ((pos - 1) / 2)
        | .ok false => .ok (heap.set pos newitem)
    else .ok (heap.set pos newitem)

/-- CPython `heapq._siftup(heap, pos)` (with `endpos` = heap length at
entry): walk the hole at `pos` down to a leaf, promoting the smaller child
each step, then place `newitem` in the leaf and bubble it up with
`_siftdown`.  `fuel` bounds the loop; every call keeps
`endpos - pos ≤ fuel` and `pos` strictly increases, so at fuel 0 the loop
guard `2*pos+1 < endpos` is already false and the 0-branch coincides with
CPython's exit. -/
def siftupGo {E : Type} [DecidableEq E] (endpos startpos : Nat) (newitem : QEntry E) :
    Nat → List (QEntry E) → Nat → Except Unit (List (QEntry E))
  | 0, heap, pos => siftdownGo startpos newitem pos (heap.set pos newitem) pos
  | fuel + 1, heap, pos =>
    let childpos := 2 * pos + 1
    if childpos < endpos then
      let rightpos := childpos + 1
      if rightpos < endpos then
        match heap[childpos]?, heap[rightpos]? with
        | some c, some r =>
          match entLt c r with
          | .error e => .error e
          | .ok true => siftupGo endpos startpos newitem fuel (heap.set pos c) childpos
          | .ok false => siftupGo endpos startpos newitem fuel (heap.set pos r) rightpos
        | _, _ => .error ()
      else
        match heap[childpos]? with
        | some c => siftupGo endpos startpos newitem fuel (heap.set pos c) childpos
        | none => .error ()
    else siftdownGo startpos newitem pos (heap.set pos newitem) pos

/-- CPython `heapq.heappush`: append the item and sift it down toward the
root. -/
def heappush {E : Type} [DecidableEq E] (heap : List (QEntry E)) (item : QEntry E) :
    Except Unit (List (QEntry E)) :=
  siftdownGo 0 item heap.length (heap ++ [item]) heap.length

/-- Python `list.pop()`: remove and return the last element. -/
def popLast {E : Type} : List (QEntry E) → Option (List (QEntry E) × QEntry E)
  | [] => none
  | [a] => some ([], a)
  | a :: b :: rest =>
    match popLast (b :: rest) with
    | some (init, last) => some (a :: init, last)
    | none => none

/-- CPython `heapq.heappop`: pop the last element; if the heap is still
nonempty, remember its root as the return value, move the popped element to
the root and restore the heap shape with `_siftup`; `heappop` on an empty
list raises (`IndexError`). -/
def heappop {E : Type} [DecidableEq E] (heap : List (QEntry E)) :
    Except Unit (QEntry E × List (QEntry E)) :=
  match popLast heap with
  | none => .error ()
  | some (shrunk, lastelt) =>
    match shrunk with
    | [] => .ok (lastelt, [])
    | s0 :: stail =>
      match siftupGo (s0 :: stail).length 0 lastelt (s0 :: stail).length
          ((s0 :: stail).set 0 lastelt) 0 with
      | .error e => .error e
      | .ok h2 => .ok (s0, h2)

/-- The queue's `put(priority, event)` (lines 27-29): push
`(priority, time.time(), event)`; the wall-clock reading is the `t`
argument here.  `put` contains no `await` and never suspends. -/
def put {E : Type} [DecidableEq E] (q : List (QEntry E)) (priority : Nat) (t : ℚ)
    (event : E) : Except Unit (List (QEntry E)) :=
  heappush q (priority, t, event)

/-- The queue's `get()` (lines 31-36) once the queue is nonempty: pop the
heap and return just the event (`heapq.heappop(self._queue)[2]`). -/
def getEvent {E : Type} [DecidableEq E] (q : List (QEntry E)) :
    Except Unit (E × List (QEntry E)) :=
  match heappop q with
  | .error e => .error e
  | .ok (ent, q') => .ok (ent.2.2, q')

/-- Run a sequence of `put` calls (arguments in push order) against an
accumulator queue. -/
def runPushes {E : Type} [DecidableEq E] :
    List (QEntry E) → List (QEntry E) → Except Unit (List (QEntry E))
  | q, [] => .ok q
  | q, x :: xs =>
    match heappush q x with
    | .error e => .error e
    | .ok q' => runPushes q' xs

/-- Drain the queue by successive `heappop`s (at most `fuel` of them; with
`fuel` = heap size this empties the queue), returning the popped entries in
pop order. -/
def drainAux {E : Type} [DecidableEq E] :
    Nat → List (QEntry E) → Except Unit (List (QEntry E))
  | 0, _ => .ok []
  | _ + 1, [] => .ok []
  | fuel + 1, a :: l =>
    match heappop (a :: l) with
    | .error e => .error e
    | .ok (m, h2) =>
      match drainAux fuel h2 with
      | .error e => .error e
      | .ok out => .ok (m :: out)

/-- Binary min-heap shape on the flat list, on the `(priority, timestamp)`
keys: every non-root position is dominated by its parent `(j-1)/2`.  This
is the invariant CPython's `heapq` maintains. -/
def IsHeap {E : Type} (l : List (QEntry E)) : Prop :=
  ∀ j, 0 < j → ∀ x y, l[(j - 1) / 2]? = some x → l[j]? = some y →
    keyLe (qKey x) (qKey y)

/-- No two entries of the list share a `(priority, timestamp)` key — the
regime in which CPython's tuple comparison never reaches the unorderable
event dicts. -/
def DistinctKeys {E : Type} (l : List (QEntry E)) : Prop :=
  (l.map qKey).Nodup

/-- Helper: `setState` never changes which keys are present. -/
theorem lookup_setState_isSome (ms : List (String × PairState)) (p : String)
    (st : PairState) (q : String) :
    ((setState ms p st).lookup q).isSome = (ms.lookup q).isSome := by
  induction ms with
  | nil => rfl
  | cons hd tl ih =>
    obtain ⟨k, v⟩ := hd
    by_cases hkp : k = p
    · simp [setState, hkp, List.lookup]
      by_cases hqk : q == p <;> simp [hqk]
    · simp [setState, hkp, List.lookup]
      by_cases hqk : q == k <;> simp [hqk, ih]

/-- Claim C6, counterexample: the claim says the default active-hours ranges
`[0,8) ∪ [7,17) ∪ [12,22)` permit every UTC hour 0..23, but hour 22 (a valid
UTC hour) is outside all three ranges, so `is_market_hours` returns `false`
and the gate suppresses on time-of-day grounds there. -/
theorem market_hours_not_all_day_counterexample :
    is_market_hours 22 = false ∧ is_market_hours 23 = false ∧ 22 < 24 := by
  decide

/-- Claim C6 (amended): with the default ranges the time-of-day check
permits exactly the UTC hours 0..21 — their union is `[0,22)`, not all 24
hours; at hours 22 and 23 the gate suppresses. -/
theorem is_market_hours_iff_lt_22 (hour : Nat) :
    is_market_hours hour = true ↔ hour < 22 := by
  simp [is_market_hours]
  omega

/-- Claim C7: with the per-pair 300s cooldown of `maybe_trigger_alert`, a
pair whose `last_alert` is `T` is suppressed by the cooldown branch when
evaluated at `T+299` (returning before any outbound call), and at `T+301`
inside active hours the gate permits: the outcome is neither a cooldown nor
an outside-hours suppression. -/
theorem cooldown_boundary_299_301 (st : PairState) (T : ℚ) (hour : Nat)
    (cfg : ATConfig) (r : Except Unit Unit) (h : st.last_alert = T) :
    (maybe_trigger_alert st (T + 299) hour cfg r).1 = .cooldownSuppressed ∧
    (is_market_hours hour = true →
      (maybe_trigger_alert st (T + 301) hour cfg r).1 ≠ .cooldownSuppressed ∧
      (maybe_trigger_alert st (T + 301) hour cfg r).1 ≠ .outsideMarketHours) := by
  constructor
  · have hc : T + 299 - st.last_alert < 300 := by rw [h]; ring_nf; norm_num
    simp [maybe_trigger_alert, hc]
  · intro hhrs
    have hc : ¬ (T + 301 - st.last_alert < 300) := by rw [h]; ring_nf; norm_num
    by_cases hcfg : (truthy cfg.username && truthy cfg.api_key && truthy cfg.your_phone_number) = true
    · cases r <;> simp [maybe_trigger_alert, hc, hhrs, hcfg]
    · simp [maybe_trigger_alert, hc, hhrs, Bool.not_eq_true _ ▸ hcfg]

/-- Claim C7 witness at `T = 0`, `hour = 10`, a fresh pair state and a full
configuration. -/
theorem cooldown_boundary_299_301_witness :
    (PairState.mk 1 0 0).last_alert = 0 ∧ is_market_hours 10 = true ∧
    ((maybe_trigger_alert (PairState.mk 1 0 0) (0 + 299) 10
        (ATConfig.mk (some "u") (some "k") (some "p") (some "v")) (.ok ())).1 =
        .cooldownSuppressed ∧
      (is_market_hours 10 = true →
        (maybe_trigger_alert (PairState.mk 1 0 0) (0 + 301) 10
          (ATConfig.mk (some "u") (some "k") (some "p") (some "v")) (.ok ())).1 ≠
            .cooldownSuppressed ∧
        (maybe_trigger_alert (PairState.mk 1 0 0) (0 + 301) 10
          (ATConfig.mk (some "u") (some "k") (some "p") (some "v")) (.ok ())).1 ≠
            .outsideMarketHours)) :=
  ⟨rfl, rfl, cooldown_boundary_299_301 (PairState.mk 1 0 0) 0 10
    (ATConfig.mk (some "u") (some "k") (some "p") (some "v")) (.ok ()) rfl⟩

/-- Claim C8: on a price tick with fractional change `change` (so the
absolute percent change is `c = |change * 100|`), an `emergency_price`
event with priority 1 is enqueued iff `c` exceeds 1.5; otherwise a
`price_spike` event with priority 2 is enqueued iff `c` exceeds 0.8;
otherwise nothing is enqueued. -/
theorem price_tick_event_thresholds (change : ℚ) :
    (priceTickEvent change = some (1, "emergency_price") ↔ |change * 100| > 3/2) ∧
    (priceTickEvent change = some (2, "price_spike") ↔
      (¬ |change * 100| > 3/2 ∧ |change * 100| > 4/5)) ∧
    (priceTickEvent change = none ↔ (¬ |change * 100| > 3/2 ∧ ¬ |change * 100| > 4/5)) := by
  unfold priceTickEvent alert_thresholds_emergency alert_thresholds_price_spike
  dsimp only
  split_ifs with h1 h2 <;> simp_all [EVENT_PRIORITIES, List.lookup]

/-- Claim C4, counterexample: pair state with `last_alert = 0` evaluated at
`now = 400`, UTC hour 10, full configuration — the gate permits and the
dispatch collaborator raises.  The dispatch call is attempted
(`callErrored`), yet `last_alert` stays `0` instead of being updated to
`now = 400`: a failed dispatch does NOT consume the cooldown window,
because `state["last_alert"] = now` sits after `voice.call` inside the
`try` block and is skipped when the call raises. -/
theorem failed_dispatch_keeps_cooldown_counterexample :
    (maybe_trigger_alert (PairState.mk 1 0 0) 400 10
        (ATConfig.mk (some "u") (some "k") (some "p") (some "v")) (.error ())) =
      (.callErrored "v" "p", PairState.mk 1 0 0) ∧ (0 : ℚ) ≠ 400 := by
  constructor
  · norm_num [maybe_trigger_alert, is_market_hours, truthy]
    decide
  · norm_num

/-- Claim C4 (amended): when the gate permits (cooldown elapsed, inside
active hours) and the configuration is present, `last_alert` is updated to
`now` exactly when the downstream `voice.call` succeeds; when the call
raises, the pair state — including `last_alert` — is left unchanged, so a
failed dispatch does not consume the cooldown window. -/
theorem last_alert_updated_iff_call_succeeds (st : PairState) (now : ℚ)
    (hour : Nat) (cfg : ATConfig)
    (hcool : ¬ (now - st.last_alert < 300)) (hhrs : is_market_hours hour = true)
    (hcfg : (truthy cfg.username && truthy cfg.api_key && truthy cfg.your_phone_number) = true) :
    (maybe_trigger_alert st now hour cfg (.ok ())).2.last_alert = now ∧
    (maybe_trigger_alert st now hour cfg (.error ())).2 = st := by
  simp [maybe_trigger_alert, hcool, hhrs, hcfg]

/-- Claim C4 witness at `last_alert = 0`, `now = 400`, hour 10, full
configuration. -/
theorem last_alert_updated_iff_call_succeeds_witness :
    ¬ ((400 : ℚ) - (PairState.mk 1 0 0).last_alert < 300) ∧
    is_market_hours 10 = true ∧
    (truthy (some "u") && truthy (some "k") && truthy (some "p")) = true ∧
    ((maybe_trigger_alert (PairState.mk 1 0 0) 400 10
        (ATConfig.mk (some "u") (some "k") (some "p") (some "v")) (.ok ())).2.last_alert = 400 ∧
      (maybe_trigger_alert (PairState.mk 1 0 0) 400 10
        (ATConfig.mk (some "u") (some "k") (some "p") (some "v")) (.error ())).2 =
        PairState.mk 1 0 0) :=
  ⟨by norm_num, rfl, rfl,
    last_alert_updated_iff_call_succeeds (PairState.mk 1 0 0) 400 10
      (ATConfig.mk (some "u") (some "k") (some "p") (some "v"))
      (by norm_num) rfl rfl⟩

/-- Claim C9, counterexample: with the origin address
(`AFRICASTALKING_VIRTUAL_NUMBER`) absent but credentials and destination
present, the outbound call IS attempted — `os.getenv` falls back to the
hardcoded default origin `+254711XXXYYY` — contradicting the claim that the
call is skipped whenever any of origin, destination, or credentials is
absent.  The configuration check at line 255 only tests username, API key
and destination number. -/
theorem call_attempted_without_origin_counterexample :
    (ATConfig.mk (some "u") (some "k") (some "p") none).virtual_number = none ∧
    (maybe_trigger_alert (PairState.mk 1 0 0) 400 10
        (ATConfig.mk (some "u") (some "k") (some "p") none) (.ok ())).1 =
      .callPlaced "+254711XXXYYY" "p" ∧
    attempted (maybe_trigger_alert (PairState.mk 1 0 0) 400 10
        (ATConfig.mk (some "u") (some "k") (some "p") none) (.ok ())).1 = true := by
  refine ⟨rfl, ?_, ?_⟩ <;>
    · norm_num [maybe_trigger_alert, is_market_hours, truthy, attempted]
      decide

/-- Claim C9 (amended): when the gate permits on cooldown and hours, the
outbound `voice.call` is attempted iff the two credential values and the
destination number are all present (truthy); the origin address is not
required — it defaults.  When that check fails the call is skipped without
being attempted, with the distinct `notConfigured` outcome rather than a
cooldown or time-of-day suppression. -/
theorem call_attempted_iff_credentials_and_destination (st : PairState)
    (now : ℚ) (hour : Nat) (cfg : ATConfig) (r : Except Unit Unit)
    (hcool : ¬ (now - st.last_alert < 300)) (hhrs : is_market_hours hour = true) :
    attempted (maybe_trigger_alert st now hour cfg r).1 =
      (truthy cfg.username && truthy cfg.api_key && truthy cfg.your_phone_number) ∧
    ((truthy cfg.username && truthy cfg.api_key && truthy cfg.your_phone_number) = false →
      (maybe_trigger_alert st now hour cfg r).1 = .notConfigured) := by
  by_cases hcfg : (truthy cfg.username && truthy cfg.api_key && truthy cfg.your_phone_number) = true
  · cases r <;> simp [maybe_trigger_alert, hcool, hhrs, hcfg, attempted]
  · simp only [Bool.not_eq_true] at hcfg
    simp [maybe_trigger_alert, hcool, hhrs, hcfg, attempted]

/-- Claim C9 witness: configuration missing the destination number, gate
otherwise permitting — the call is not attempted and the outcome is the
distinct `notConfigured` log. -/
theorem call_attempted_iff_credentials_and_destination_witness :
    ¬ ((400 : ℚ) - (PairState.mk 1 0 0).last_alert < 300) ∧
    is_market_hours 10 = true ∧
    (attempted (maybe_trigger_alert (PairState.mk 1 0 0) 400 10
        (ATConfig.mk (some "u") (some "k") none (some "v")) (.ok ())).1 =
      (truthy (some "u") && truthy (some "k") && truthy (none : Option String)) ∧
      ((truthy (some "u") && truthy (some "k") && truthy (none : Option String)) = false →
        (maybe_trigger_alert (PairState.mk 1 0 0) 400 10
          (ATConfig.mk (some "u") (some "k") none (some "v")) (.ok ())).1 = .notConfigured)) :=
  ⟨by norm_num, rfl,
    call_attempted_iff_credentials_and_destination (PairState.mk 1 0 0) 400 10
      (ATConfig.mk (some "u") (some "k") none (some "v")) (.ok ())
      (by norm_num) rfl⟩

/-- Claim C3, counterexample: a two-event script in which the first event's
`generate_ai_response` collaborator raises.  Neither `generate_ai_response`
nor the `event_processor` loop body contains any `try`/`except`, so the
error unwinds past the per-event iteration and the loop terminates with the
exception (`Except.error`): the second queued event is never processed,
contradicting the claim that analysis errors are caught and the loop
continues.  (Only `maybe_trigger_alert`'s `voice.call` is guarded by a
`try`.) -/
theorem analysis_error_terminates_loop_counterexample :
    event_processor_loop (ATConfig.mk (some "u") (some "k") (some "p") (some "v"))
      (initial_market_state fun _ => 1)
      [(.price "EUR/USD" 2 1, IterOracle.mk (.error ()) 400 10 (.ok ())),
       (.price "USD/JPY" 2 1, IterOracle.mk (.ok "analysis") 400 10 (.ok ()))] =
      .error () ∧
    (event_processor_loop (ATConfig.mk (some "u") (some "k") (some "p") (some "v"))
      (initial_market_state fun _ => 1)
      [(.price "USD/JPY" 2 1, IterOracle.mk (.ok "analysis") 400 10 (.ok ()))]).isOk = true := by
  exact ⟨rfl, rfl⟩

/-- Claim C3 (amended): dispatch-collaborator errors are caught at the
`voice.call` boundary and never unwind, so as long as every event's
analysis collaborator succeeds and every event's pair has a `market_state`
entry, the `event_processor` loop completes the whole script — one outcome
per event — no matter how the dispatch collaborator behaves.  An
analysis-collaborator error, by contrast, is NOT caught: it propagates out
of the per-event iteration and terminates the loop (see the
counterexample), which is why the analysis-success hypothesis is needed. -/
theorem dispatch_error_does_not_stop_loop (cfg : ATConfig)
    (ms : List (String × PairState)) (evs : List (AgentEvent × IterOracle))
    (hA : ∀ x ∈ evs, x.2.analysisOutcome.isOk = true)
    (hP : ∀ x ∈ evs, ((ms.lookup (eventPair x.1)).isSome = true)) :
    ∃ results msF, event_processor_loop cfg ms evs = .ok (results, msF) ∧
      results.length = evs.length := by
  induction evs generalizing ms with
  | nil => exact ⟨[], ms, rfl, rfl⟩
  | cons hd tl ih =>
    obtain ⟨ev, o⟩ := hd
    have hA0 : o.analysisOutcome.isOk = true := hA (ev, o) (by simp)
    have hP0 : (ms.lookup (eventPair ev)).isSome = true := hP (ev, o) (by simp)
    obtain ⟨st, hst⟩ : ∃ st, ms.lookup (eventPair ev) = some st := by
      cases h : ms.lookup (eventPair ev) with
      | none => rw [h] at hP0; simp at hP0
      | some st => exact ⟨st, rfl⟩
    obtain ⟨a, ha⟩ : ∃ a, o.analysisOutcome = .ok a := by
      cases h : o.analysisOutcome with
      | error e => rw [h] at hA0; simp [Except.isOk, Except.toBool] at hA0
      | ok a => exact ⟨a, rfl⟩
    have hmta : ∃ res ms', agent_maybe_trigger_alert ms (eventPair ev) o.now o.hour cfg
        o.callOutcome = .ok (res, ms') ∧ ms' = setState ms (eventPair ev)
          ((maybe_trigger_alert st o.now o.hour cfg o.callOutcome).2) := by
      refine ⟨(maybe_trigger_alert st o.now o.hour cfg o.callOutcome).1, _, ?_, rfl⟩
      simp [agent_maybe_trigger_alert, lookupState, hst]
    obtain ⟨res, ms', hok, hms'⟩ := hmta
    have hone : process_one ms ev o cfg = .ok (res, ms') := by
      cases ev with
      | price pair c p =>
        simp only [eventPair] at hst hok
        simp [process_one, lookupState, hst, ha, hok]
      | news pair h =>
        simp only [eventPair] at hok
        simp [process_one, ha, hok]
    have hPtl : ∀ x ∈ tl, ((ms'.lookup (eventPair x.1)).isSome = true) := by
      intro x hx
      rw [hms', lookup_setState_isSome]
      exact hP x (by simp [hx])
    have hAtl : ∀ x ∈ tl, x.2.analysisOutcome.isOk = true := fun x hx => hA x (by simp [hx])
    obtain ⟨results, msF, hloop, hlen⟩ := ih ms' hAtl hPtl
    exact ⟨res :: results, msF, by simp [event_processor_loop, hone, hloop], by simp [hlen]⟩

/-- Claim C3 witness: a one-event script with a failing dispatch
collaborator completes. -/
theorem dispatch_error_does_not_stop_loop_witness :
    (∀ x ∈ [((AgentEvent.price "EUR/USD" 2 1), IterOracle.mk (.ok "analysis") 400 10 (.error ()))],
      x.2.analysisOutcome.isOk = true) ∧
    (∀ x ∈ [((AgentEvent.price "EUR/USD" 2 1), IterOracle.mk (.ok "analysis") 400 10 (.error ()))],
      (((initial_market_state fun _ => 1).lookup (eventPair x.1)).isSome = true)) ∧
    (∃ results msF,
      event_processor_loop (ATConfig.mk (some "u") (some "k") (some "p") (some "v"))
        (initial_market_state fun _ => 1)
        [((AgentEvent.price "EUR/USD" 2 1), IterOracle.mk (.ok "analysis") 400 10 (.error ()))] =
        .ok (results, msF) ∧ results.length = 1) :=
  ⟨by intro x hx; simp at hx; rw [hx]; rfl, by intro x hx; simp at hx; rw [hx]; rfl,
    dispatch_error_does_not_stop_loop _ _ _
      (by intro x hx; simp at hx; rw [hx]; rfl)
      (by intro x hx; simp at hx; rw [hx]; rfl)⟩

/-- Claim C10, counterexample: the `news_monitor` headline list contains
`("Geopolitical tensions escalate", "USD/CHF")`, but `USD/CHF` is not a
monitored pair, so `market_state` has no entry for it; processing that news
event reaches `maybe_trigger_alert`'s `state = self.market_state[pair]`
lookup, which raises an uncaught `KeyError` (`Except.error`) instead of the
always-succeeding lookup the claim asserts. -/
theorem news_pair_missing_state_counterexample :
    ("Geopolitical tensions escalate", "USD/CHF") ∈ sample_news ∧
    (initial_market_state fun _ => 1).lookup "USD/CHF" = none ∧
    process_one (initial_market_state fun _ => 1)
      (.news "USD/CHF" "Geopolitical tensions escalate")
      (IterOracle.mk (.ok "analysis") 400 10 (.ok ()))
      (ATConfig.mk (some "u") (some "k") (some "p") (some "v")) = .error () := by
  exact ⟨by simp [sample_news], rfl, rfl⟩

/-- Claim C10 (amended): every pair the price producer can emit (it
iterates exactly over `monitored_pairs`) has a `market_state` entry, so
price-event lookups always succeed; but a news-producer pair has an entry
iff it is monitored, and the headline list contains exactly two pairs —
`USD/CHF` and `USD/ZAR` — that are not, so those news events make the
processor's per-key lookup fail. -/
theorem producer_pair_lookup_characterization (priceOf : String → ℚ) :
    (∀ p ∈ monitored_pairs, ((initial_market_state priceOf).lookup p).isSome = true) ∧
    (∀ hp ∈ sample_news,
      (((initial_market_state priceOf).lookup hp.2).isSome = true ↔ hp.2 ∈ monitored_pairs)) ∧
    (∀ hp ∈ sample_news,
      (hp.2 ∉ monitored_pairs ↔ (hp.2 = "USD/CHF" ∨ hp.2 = "USD/ZAR"))) := by
  refine ⟨?_, ?_, ?_⟩
  · intro p hp
    fin_cases hp <;> rfl
  · intro hp hmem
    fin_cases hmem <;> simp [initial_market_state, monitored_pairs, List.lookup]
  · intro hp hmem
    fin_cases hmem <;> simp [monitored_pairs]

/-- Claim C10 witness at a concrete initial price assignment, checking the
statement's three parts are derivable and its hypotheses (membership) are
inhabited. -/
theorem producer_pair_lookup_characterization_witness :
    "EUR/USD" ∈ monitored_pairs ∧
    ("Geopolitical tensions escalate", "USD/CHF") ∈ sample_news ∧
    ((∀ p ∈ monitored_pairs, ((initial_market_state fun _ => 1).lookup p).isSome = true) ∧
      (∀ hp ∈ sample_news,
        (((initial_market_state fun _ => 1).lookup hp.2).isSome = true ↔ hp.2 ∈ monitored_pairs)) ∧
      (∀ hp ∈ sample_news,
        (hp.2 ∉ monitored_pairs ↔ (hp.2 = "USD/CHF" ∨ hp.2 = "USD/ZAR")))) :=
  ⟨by simp [monitored_pairs], by simp [sample_news],
    producer_pair_lookup_characterization fun _ => 1⟩

/-- Helper: every step of the interleaving preserves `LockInv`. -/
theorem sysStep_lockInv {s s' : AgentSys} (hinv : LockInv s) (hstep : SysStep s s') :
    LockInv s' := by
  cases hstep with
  | pricePush => exact hinv
  | newsPush => exact hinv
  | monitorReport => exact hinv
  | procAcquire hq hw hl => exact Or.inr rfl
  | procAnalyzeDone h => exact hinv
  | procRelease h hl => exact Or.inl rfl
  | procThrottleDone h => exact hinv

/-- Helper: `LockInv` holds in every reachable state. -/
theorem sysReachable_lockInv {s : AgentSys} (h : SysReachable s) : LockInv s := by
  induction h with
  | refl => exact Or.inl rfl
  | tail _ hstep ih => exact sysStep_lockInv ih hstep

/-- Claim C2: in every state reachable by any interleaving of the four
coroutines — any number of producer pushes and queued events — at most one
execution context holds `resource_lock`, and any holder is the event
processor.  Only `event_processor` acquires the lock in the source
(producers and the monitor never touch it), and it does so via a single
`async with` around the analyze/gate/dispatch section, so critical-section
occupancies never overlap. -/
theorem resource_lock_mutual_exclusion (s : AgentSys) (h : SysReachable s) :
    s.lockHolders.length ≤ 1 ∧ ∀ c ∈ s.lockHolders, c = Ctx.processor := by
  rcases sysReachable_lockInv h with heq | heq <;> rw [heq] <;> simp

/-- Claim C2 witness: a concrete interleaving — a producer pushes, then the
processor dequeues and enters the critical section — reaches a state where
the processor holds the lock; mutual exclusion holds there. -/
theorem resource_lock_mutual_exclusion_witness :
    SysReachable (AgentSys.mk 0 .analyzing [Ctx.processor]) ∧
    ((AgentSys.mk 0 .analyzing [Ctx.processor]).lockHolders.length ≤ 1 ∧
      ∀ c ∈ (AgentSys.mk 0 .analyzing [Ctx.processor]).lockHolders, c = Ctx.processor) := by
  have hreach : SysReachable (AgentSys.mk 0 .analyzing [Ctx.processor]) := by
    refine Relation.ReflTransGen.tail (Relation.ReflTransGen.tail
      Relation.ReflTransGen.refl (SysStep.pricePush initSys)) ?_
    exact SysStep.procAcquire (AgentSys.mk 1 .waitingForEvent []) (by decide) rfl rfl
  exact ⟨hreach, resource_lock_mutual_exclusion _ hreach⟩

/-- Helper: `keyLt` is irreflexive. -/
theorem keyLt_irrefl (x : Nat × ℚ) : ¬ keyLt x x := by
  unfold keyLt
  rintro (h | ⟨-, h⟩) <;> exact lt_irrefl _ h

/-- Helper: `keyLt` is transitive. -/
theorem keyLt_trans {x y z : Nat × ℚ} (h1 : keyLt x y) (h2 : keyLt y z) : keyLt x z := by
  unfold keyLt at *
  rcases h1 with h1 | ⟨e1, h1⟩ <;> rcases h2 with h2 | ⟨e2, h2⟩
  · exact Or.inl (lt_trans h1 h2)
  · exact Or.inl (e2 ▸ h1)
  · exact Or.inl (e1 ▸ h2)
  · exact Or.inr ⟨e1.trans e2, lt_trans h1 h2⟩

/-- Helper: keys are totally ordered — two distinct keys compare strictly
one way or the other. -/
theorem keyLt_or_keyLt_of_ne {x y : Nat × ℚ} (h : x ≠ y) : keyLt x y ∨ keyLt y x := by
  unfold keyLt
  rcases lt_trichotomy x.1 y.1 with h1 | h1 | h1
  · exact Or.inl (Or.inl h1)
  · rcases lt_trichotomy x.2 y.2 with h2 | h2 | h2
    · exact Or.inl (Or.inr ⟨h1, h2⟩)
    · exact absurd (Prod.ext h1 h2) h
    · exact Or.inr (Or.inr ⟨h1.symm, h2⟩)
  · exact Or.inr (Or.inl h1)

/-- Helper: a strict key comparison yields the reflexive one. -/
theorem keyLe_of_keyLt {x y : Nat × ℚ} (h : keyLt x y) : keyLe x y := Or.inl h

/-- Helper: `keyLe` is reflexive. -/
theorem keyLe_refl (x : Nat × ℚ) : keyLe x x := Or.inr rfl

/-- Helper: transitivity of `keyLe`. -/
theorem keyLe_trans {x y z : Nat × ℚ} (h1 : keyLe x y) (h2 : keyLe y z) : keyLe x z := by
  rcases h1 with h1 | rfl
  · rcases h2 with h2 | rfl
    · exact Or.inl (keyLt_trans h1 h2)
    · exact Or.inl h1
  · exact h2

/-- Helper: strict-then-reflexive transitivity. -/
theorem keyLt_of_keyLt_of_keyLe {x y z : Nat × ℚ} (h1 : keyLt x y) (h2 : keyLe y z) :
    keyLt x z := by
  rcases h2 with h2 | rfl
  · exact keyLt_trans h1 h2
  · exact h1

/-- Helper: with distinct keys, a failed strict comparison flips. -/
theorem keyLt_flip_of_not {x y : Nat × ℚ} (hne : x ≠ y) (h : ¬ keyLt x y) : keyLt y x :=
  (keyLt_or_keyLt_of_ne hne).resolve_left h

/-- Helper: when the `(priority, timestamp)` keys differ, CPython's tuple
comparison never reaches the event dicts and decides exactly the
lexicographic key order. -/
theorem entLt_of_key_ne {E : Type} [DecidableEq E] {a b : QEntry E}
    (h : qKey a ≠ qKey b) :
    entLt a b = .ok (decide (keyLt (qKey a) (qKey b))) := by
  obtain ⟨p1, t1, e1⟩ := a
  obtain ⟨p2, t2, e2⟩ := b
  simp only [qKey, Ne, Prod.mk.injEq, not_and] at h
  unfold entLt
  by_cases hp : p1 = p2
  · subst hp
    have ht : t1 ≠ t2 := h rfl
    have hiff : keyLt (qKey (p1, t1, e1)) (qKey (p1, t2, e2)) ↔ t1 < t2 := by
      simp [keyLt, qKey]
    rw [if_neg (by simp), if_pos ht]
    exact congrArg Except.ok (decide_eq_decide.mpr hiff).symm
  · have hiff : keyLt (qKey (p1, t1, e1)) (qKey (p2, t2, e2)) ↔ p1 < p2 := by
      simp [keyLt, qKey, hp]
    rw [if_pos hp]
    exact congrArg Except.ok (decide_eq_decide.mpr hiff).symm

/-- Helper: setting an occupied position exchanges elements at the multiset
level. -/
theorem set_coe_cons {α : Type} {l : List α} {i : ℕ} {x : α} (a : α)
    (h : l[i]? = some x) :
    (x ::ₘ ((l.set i a : List α) : Multiset α)) = a ::ₘ (l : Multiset α) := by
  induction l generalizing i with
  | nil => simp at h
  | cons b t ih =>
    cases i with
    | zero =>
      simp only [List.getElem?_cons_zero, Option.some.injEq] at h
      subst h
      simp only [List.set_cons_zero, ← Multiset.cons_coe]
      exact Multiset.cons_swap _ _ _
    | succ i =>
      simp only [List.getElem?_cons_succ] at h
      simp only [List.set_cons_succ, ← Multiset.cons_coe]
      calc x ::ₘ b ::ₘ ↑(t.set i a) = b ::ₘ (x ::ₘ ↑(t.set i a)) := Multiset.cons_swap _ _ _
        _ = b ::ₘ (a ::ₘ ↑t) := by rw [ih h]
        _ = a ::ₘ b ::ₘ ↑t := Multiset.cons_swap _ _ _

/-- Helper: reading entries at two different positions of a
`DistinctKeys` list yields different keys. -/
theorem DistinctKeys.ne_of_get {E : Type} {l : List (QEntry E)} (hD : DistinctKeys l)
    {i j : ℕ} {x y : QEntry E} (hij : i ≠ j) (hx : l[i]? = some x) (hy : l[j]? = some y) :
    qKey x ≠ qKey y := by
  rw [List.getElem?_eq_some] at hx hy
  obtain ⟨hi, hx⟩ := hx
  obtain ⟨hj, hy⟩ := hy
  intro hxy
  have hi' : i < (l.map qKey).length := by simpa using hi
  have hj' : j < (l.map qKey).length := by simpa using hj
  have hmap : (l.map qKey)[i] = (l.map qKey)[j] := by
    rw [List.getElem_map, List.getElem_map, hx, hy, hxy]
  exact hij (List.Nodup.getElem_inj_iff hD |>.mp hmap)

/-- Helper: writing `newitem` at `pos` produces a heap, provided every edge
not entering `pos` already respects the order, `newitem` is below `pos`'s
children, and `pos`'s parent is below `newitem`. -/
theorem isHeap_set_of {E : Type} (l : List (QEntry E)) (pos : ℕ) (newitem : QEntry E)
    (hpos : pos < l.length)
    (J1 : ∀ j, 0 < j → j ≠ pos → ∀ x y, l[(j - 1) / 2]? = some x → l[j]? = some y →
      keyLe (qKey x) (qKey y))
    (J3 : ∀ c, (c = 2 * pos + 1 ∨ c = 2 * pos + 2) → ∀ y, l[c]? = some y →
      keyLt (qKey newitem) (qKey y))
    (hpar : 0 < pos → ∀ p, l[(pos - 1) / 2]? = some p → keyLe (qKey p) (qKey newitem)) :
    IsHeap (l.set pos newitem) := by
  intro j hj x y hx hy
  by_cases hjp : j = pos
  · subst hjp
    have hne : j ≠ (j - 1) / 2 := by omega
    rw [List.getElem?_set_ne hne] at hx
    rw [List.getElem?_set_self hpos] at hy
    injection hy with hy
    subst hy
    exact hpar hj x hx
  · rw [List.getElem?_set_ne (fun h => hjp h.symm)] at hy
    by_cases hpx : (j - 1) / 2 = pos
    · rw [hpx, List.getElem?_set_self hpos] at hx
      injection hx with hx
      subst hx
      have hchild : j = 2 * pos + 1 ∨ j = 2 * pos + 2 := by omega
      exact keyLe_of_keyLt (J3 j hchild y hy)
    · rw [List.getElem?_set_ne (fun h => hpx h.symm)] at hx
      exact J1 j hj hjp x y hx hy

/-- Helper, main `_siftdown` specification: under the bubble-up invariants
(all edges except the one into `pos` respect the order, `pos`'s children
dominate both `newitem` and `pos`'s parent, and every position strictly
below `pos` has a key different from `newitem`'s), the sift succeeds and
yields a heap that is the original list with `newitem` written over the
entry at `pos`, up to permutation. -/
theorem siftdownGo_spec {E : Type} [DecidableEq E] (newitem : QEntry E) :
    ∀ (fuel : ℕ) (l : List (QEntry E)) (pos : ℕ),
    pos ≤ fuel → pos < l.length →
    (∀ j, 0 < j → j ≠ pos → ∀ x y, l[(j - 1) / 2]? = some x → l[j]? = some y →
      keyLe (qKey x) (qKey y)) →
    (0 < pos → ∀ c, (c = 2 * pos + 1 ∨ c = 2 * pos + 2) → ∀ g y,
      l[(pos - 1) / 2]? = some g → l[c]? = some y → keyLe (qKey g) (qKey y)) →
    (∀ c, (c = 2 * pos + 1 ∨ c = 2 * pos + 2) → ∀ y, l[c]? = some y →
      keyLt (qKey newitem) (qKey y)) →
    (∀ j, j < pos → ∀ x, l[j]? = some x → qKey x ≠ qKey newitem) →
    ∃ l', siftdownGo 0 newitem fuel l pos = .ok l' ∧ IsHeap l' ∧
      l'.length = l.length ∧
      ∀ x, l[pos]? = some x →
        (x ::ₘ (l' : Multiset (QEntry E))) = newitem ::ₘ (l : Multiset (QEntry E)) := by
  intro fuel
  induction fuel with
  | zero =>
    intro l pos hfuel hpos J1 J2 J3 M
    have hp0 : pos = 0 := by omega
    subst hp0
    refine ⟨l.set 0 newitem, rfl, ?_, l.length_set 0 newitem, ?_⟩
    · exact isHeap_set_of l 0 newitem hpos J1 J3 (fun h => absurd h (by omega))
    · intro x hx
      exact set_coe_cons newitem hx
  | succ fuel ih =>
    intro l pos hfuel hpos J1 J2 J3 M
    by_cases h0 : 0 < pos
    · have hpplt : (pos - 1) / 2 < pos := by omega
      have hpplen : (pos - 1) / 2 < l.length := lt_trans hpplt hpos
      obtain ⟨parent, hparent⟩ : ∃ p, l[(pos - 1) / 2]? = some p :=
        ⟨_, List.getElem?_eq_getElem hpplen⟩
      have hkne : qKey parent ≠ qKey newitem := M _ hpplt parent hparent
      have hcmp : entLt newitem parent = .ok (decide (keyLt (qKey newitem) (qKey parent))) :=
        entLt_of_key_ne hkne.symm
      rw [show siftdownGo 0 newitem (fuel + 1) l pos =
          (if 0 < pos then
            match l[(pos - 1) / 2]? with
            | none => .error ()
            | some parent =>
              match entLt newitem parent with
              | .error e => .error e
              | .ok true =>
                  siftdownGo 0 newitem fuel (l.set pos parent) ((pos - 1) / 2)
              | .ok false => .ok (l.set pos newitem)
          else .ok (l.set pos newitem)) from rfl]
      rw [if_pos h0, hparent]
      dsimp only
      rw [hcmp]
      by_cases hlt : keyLt (qKey newitem) (qKey parent)
      · rw [decide_eq_true hlt]
        have hppne : pos ≠ (pos - 1) / 2 := by omega
        have J1' : ∀ j, 0 < j → j ≠ (pos - 1) / 2 → ∀ x y,
            (l.set pos parent)[(j - 1) / 2]? = some x →
            (l.set pos parent)[j]? = some y → keyLe (qKey x) (qKey y) := by
          intro j hj hjne x y hx hy
          by_cases hjp : j = pos
          · subst hjp
            rw [List.getElem?_set_ne hppne] at hx
            rw [List.getElem?_set_self hpos] at hy
            rw [hparent] at hx
            injection hx with hx
            injection hy with hy
            subst hx
            subst hy
            exact keyLe_refl _
          · rw [List.getElem?_set_ne (fun h => hjp h.symm)] at hy
            by_cases hpx : (j - 1) / 2 = pos
            · rw [hpx, List.getElem?_set_self hpos] at hx
              injection hx with hx
              subst hx
              have hchild : j = 2 * pos + 1 ∨ j = 2 * pos + 2 := by omega
              exact J2 h0 j hchild parent y hparent hy
            · rw [List.getElem?_set_ne (fun h => hpx h.symm)] at hx
              exact J1 j hj hjp x y hx hy
        have J2' : 0 < (pos - 1) / 2 → ∀ c,
            (c = 2 * ((pos - 1) / 2) + 1 ∨ c = 2 * ((pos - 1) / 2) + 2) → ∀ g y,
            (l.set pos parent)[((pos - 1) / 2 - 1) / 2]? = some g →
            (l.set pos parent)[c]? = some y → keyLe (qKey g) (qKey y) := by
          intro hpp0 c hc g y hg hy
          have hgne : pos ≠ ((pos - 1) / 2 - 1) / 2 := by omega
          rw [List.getElem?_set_ne hgne] at hg
          have hJg : keyLe (qKey g) (qKey parent) :=
            J1 ((pos - 1) / 2) hpp0 (by omega) g parent hg hparent
          by_cases hcp : c = pos
          · subst hcp
            rw [List.getElem?_set_self hpos] at hy
            injection hy with hy
            subst hy
            exact hJg
          · rw [List.getElem?_set_ne (fun h => hcp h.symm)] at hy
            have hcpar : (c - 1) / 2 = (pos - 1) / 2 := by omega
            have hJc : keyLe (qKey parent) (qKey y) := by
              refine J1 c (by omega) hcp parent y ?_ hy
              rw [hcpar]
              exact hparent
            exact keyLe_trans hJg hJc
        have J3' : ∀ c, (c = 2 * ((pos - 1) / 2) + 1 ∨ c = 2 * ((pos - 1) / 2) + 2) →
            ∀ y, (l.set pos parent)[c]? = some y → keyLt (qKey newitem) (qKey y) := by
          intro c hc y hy
          by_cases hcp : c = pos
          · subst hcp
            rw [List.getElem?_set_self hpos] at hy
            injection hy with hy
            subst hy
            exact hlt
          · rw [List.getElem?_set_ne (fun h => hcp h.symm)] at hy
            have hcpar : (c - 1) / 2 = (pos - 1) / 2 := by omega
            have hJc : keyLe (qKey parent) (qKey y) := by
              refine J1 c (by omega) hcp parent y ?_ hy
              rw [hcpar]
              exact hparent
            exact keyLt_of_keyLt_of_keyLe hlt hJc
        have M' : ∀ j, j < (pos - 1) / 2 → ∀ x, (l.set pos parent)[j]? = some x →
            qKey x ≠ qKey newitem := by
          intro j hj x hx
          rw [List.getElem?_set_ne (by omega)] at hx
          exact M j (by omega) x hx
        obtain ⟨l'', hrun, hheap, hlen, hmset⟩ :=
          ih (l.set pos parent) ((pos - 1) / 2) (by omega)
            (by rw [l.length_set]; exact hpplen) J1' J2' J3' M'
        refine ⟨l'', hrun, hheap, ?_, ?_⟩
        · rw [hlen, l.length_set]
        · intro x hx
          have hx'' : (l.set pos parent)[(pos - 1) / 2]? = some parent := by
            rw [List.getElem?_set_ne hppne]
            exact hparent
          have hA := hmset parent hx''
          have hB := set_coe_cons parent hx
          have hchain : parent ::ₘ x ::ₘ (l'' : Multiset (QEntry E)) =
              parent ::ₘ newitem ::ₘ (l : Multiset (QEntry E)) := by
            calc parent ::ₘ x ::ₘ (l'' : Multiset (QEntry E))
                = x ::ₘ parent ::ₘ (l'' : Multiset (QEntry E)) := Multiset.cons_swap _ _ _
              _ = x ::ₘ newitem ::ₘ ((l.set pos parent : List (QEntry E)) : Multiset (QEntry E)) := by
                  rw [hA]
              _ = newitem ::ₘ x ::ₘ ((l.set pos parent : List (QEntry E)) : Multiset (QEntry E)) :=
                  Multiset.cons_swap _ _ _
              _ = newitem ::ₘ parent ::ₘ (l : Multiset (QEntry E)) := by rw [hB]
              _ = parent ::ₘ newitem ::ₘ (l : Multiset (QEntry E)) := Multiset.cons_swap _ _ _
          exact (Multiset.cons_inj_right parent).mp hchain
      · rw [decide_eq_false hlt]
        refine ⟨l.set pos newitem, rfl, ?_, l.length_set pos newitem, ?_⟩
        · refine isHeap_set_of l pos newitem hpos J1 J3 ?_
          intro _ p hp
          rw [hparent] at hp
          injection hp with hp
          subst hp
          exact keyLe_of_keyLt (keyLt_flip_of_not hkne.symm hlt)
        · intro x hx
          exact set_coe_cons newitem hx
    · rw [show siftdownGo 0 newitem (fuel + 1) l pos =
          (if 0 < pos then
            match l[(pos - 1) / 2]? with
            | none => .error ()
            | some parent =>
              match entLt newitem parent with
              | .error e => .error e
              | .ok true =>
                  siftdownGo 0 newitem fuel (l.set pos parent) ((pos - 1) / 2)
              | .ok false => .ok (l.set pos newitem)
          else .ok (l.set pos newitem)) from rfl]
      rw [if_neg h0]
      refine ⟨l.set pos newitem, rfl, ?_, l.length_set pos newitem, ?_⟩
      · exact isHeap_set_of l pos newitem hpos J1 J3 (fun h => absurd h h0)
      · intro x hx
        exact set_coe_cons newitem hx

/-- Helper: `heappush` on a heap with pairwise-distinct keys (the pushed
item included) succeeds — no comparison ever reaches the event dicts — and
returns a heap holding exactly the old entries plus the new one. -/
theorem heappush_spec {E : Type} [DecidableEq E] (l : List (QEntry E)) (item : QEntry E)
    (H : IsHeap l) (D : DistinctKeys (l ++ [item])) :
    ∃ l', heappush l item = .ok l' ∧ IsHeap l' ∧ DistinctKeys l' ∧
      l'.length = l.length + 1 ∧
      (l' : Multiset (QEntry E)) = item ::ₘ (l : Multiset (QEntry E)) := by
  have hlen0 : (l ++ [item]).length = l.length + 1 := by simp
  have hpos : l.length < (l ++ [item]).length := by omega
  have hitem : (l ++ [item])[l.length]? = some item := List.getElem?_concat_length l item
  have J1 : ∀ j, 0 < j → j ≠ l.length → ∀ x y,
      (l ++ [item])[(j - 1) / 2]? = some x → (l ++ [item])[j]? = some y →
      keyLe (qKey x) (qKey y) := by
    intro j hj hjne x y hx hy
    have hjlen : j < (l ++ [item]).length := (List.getElem?_eq_some.mp hy).1
    have hjl : j < l.length := by omega
    have hpl : (j - 1) / 2 < l.length := by omega
    rw [List.getElem?_append, if_pos hpl] at hx
    rw [List.getElem?_append, if_pos hjl] at hy
    exact H j hj x y hx hy
  have J23vac : ∀ c, (c = 2 * l.length + 1 ∨ c = 2 * l.length + 2) → ∀ y : QEntry E,
      (l ++ [item])[c]? = some y → False := by
    intro c hc y hy
    have : (l ++ [item])[c]? = none := List.getElem?_eq_none (by omega)
    rw [this] at hy
    exact Option.noConfusion hy
  have M : ∀ j, j < l.length → ∀ x, (l ++ [item])[j]? = some x →
      qKey x ≠ qKey item := by
    intro j hjl x hx
    exact D.ne_of_get (by omega) hx hitem
  obtain ⟨l', hrun, hheap, hlen, hmset⟩ :=
    siftdownGo_spec item l.length (l ++ [item]) l.length le_rfl hpos J1
      (fun _ c hc g y _ hy => (J23vac c hc y hy).elim)
      (fun c hc y hy => (J23vac c hc y hy).elim)
      M
  have hmeq : (l' : Multiset (QEntry E)) = item ::ₘ (l : Multiset (QEntry E)) := by
    have h1 := hmset item hitem
    have h2 : ((l ++ [item] : List (QEntry E)) : Multiset (QEntry E)) =
        item ::ₘ (l : Multiset (QEntry E)) := by
      rw [Multiset.coe_eq_coe.mpr (List.perm_append_singleton item l)]
      exact (Multiset.cons_coe item l).symm
    rw [h2] at h1
    exact (Multiset.cons_inj_right item).mp h1
  refine ⟨l', hrun, hheap, ?_, by omega, hmeq⟩
  have hperm : l'.Perm (l ++ [item]) := by
    rw [← Multiset.coe_eq_coe, hmeq]
    exact (Multiset.coe_eq_coe.mpr (List.perm_append_singleton item l)).symm
  exact ((hperm.map qKey).nodup_iff).mpr D

/-- Helper: `popLast` on a nonempty list removes exactly the last element. -/
theorem popLast_eq {E : Type} :
    ∀ (l : List (QEntry E)), l ≠ [] →
    ∃ init last, popLast l = some (init, last) ∧ l = init ++ [last]
  | [], hne => absurd rfl hne
  | [a], _ => ⟨[], a, rfl, rfl⟩
  | a :: b :: r, _ => by
    obtain ⟨init, last, hpop, heq⟩ := popLast_eq (b :: r) (by simp)
    refine ⟨a :: init, last, ?_, by rw [List.cons_append, ← heq]⟩
    show (match popLast (b :: r) with
      | some (init, last) => some (a :: init, last)
      | none => none) = some (a :: init, last)
    rw [hpop]

/-- Helper, main `_siftup` specification: walking the hole at `pos` down to
a leaf (promoting the smaller child each step, comparisons never erroring
because positions strictly beyond `pos` carry pairwise-distinct keys) and
re-inserting `newitem` from the leaf yields a heap equal, up to
permutation, to the list with `newitem` written at `pos`.  `K1` says every
edge touching neither endpoint at `pos` respects the order; `K2` bounds
`pos`'s children by its parent; `M` separates `newitem`'s key from every
other position; `N` makes keys beyond `pos` pairwise distinct. -/
theorem siftupGo_spec {E : Type} [DecidableEq E] (newitem : QEntry E) :
    ∀ (fuel : ℕ) (l : List (QEntry E)) (pos : ℕ),
    l.length - pos ≤ fuel → pos < l.length →
    (∀ j, 0 < j → j ≠ pos → (j - 1) / 2 ≠ pos → ∀ x y,
      l[(j - 1) / 2]? = some x → l[j]? = some y → keyLe (qKey x) (qKey y)) →
    (0 < pos → ∀ c, (c = 2 * pos + 1 ∨ c = 2 * pos + 2) → ∀ g y,
      l[(pos - 1) / 2]? = some g → l[c]? = some y → keyLe (qKey g) (qKey y)) →
    (∀ j, j ≠ pos → ∀ x, l[j]? = some x → qKey x ≠ qKey newitem) →
    (∀ i j, pos < i → i < j → ∀ x y, l[i]? = some x → l[j]? = some y →
      qKey x ≠ qKey y) →
    ∃ l', siftupGo l.length 0 newitem fuel l pos = .ok l' ∧ IsHeap l' ∧
      l'.length = l.length ∧
      ∀ x, l[pos]? = some x →
        (x ::ₘ (l' : Multiset (QEntry E))) = newitem ::ₘ (l : Multiset (QEntry E)) := by
  intro fuel
  induction fuel with
  | zero =>
    intro l pos hfuel hpos K1 K2 M N
    omega
  | succ fuel ih =>
    intro l pos hfuel hpos K1 K2 M N
    rw [show siftupGo l.length 0 newitem (fuel + 1) l pos =
        (if 2 * pos + 1 < l.length then
          if 2 * pos + 1 + 1 < l.length then
            match l[2 * pos + 1]?, l[2 * pos + 1 + 1]? with
            | some c, some r =>
              match entLt c r with
              | .error e => .error e
              | .ok true => siftupGo l.length 0 newitem fuel (l.set pos c) (2 * pos + 1)
              | .ok false => siftupGo l.length 0 newitem fuel (l.set pos r) (2 * pos + 1 + 1)
            | _, _ => .error ()
          else
            match l[2 * pos + 1]? with
            | some c => siftupGo l.length 0 newitem fuel (l.set pos c) (2 * pos + 1)
            | none => .error ()
        else siftdownGo 0 newitem pos (l.set pos newitem) pos) from rfl]
    have step : ∀ (cp : ℕ) (v : QEntry E), (cp = 2 * pos + 1 ∨ cp = 2 * pos + 2) →
        cp < l.length → l[cp]? = some v →
        (∀ s, (s = 2 * pos + 1 ∨ s = 2 * pos + 2) → s ≠ cp → ∀ y, l[s]? = some y →
          keyLe (qKey v) (qKey y)) →
        ∃ l', siftupGo l.length 0 newitem fuel (l.set pos v) cp = .ok l' ∧ IsHeap l' ∧
          l'.length = l.length ∧
          ∀ x, l[pos]? = some x →
            (x ::ₘ (l' : Multiset (QEntry E))) = newitem ::ₘ (l : Multiset (QEntry E)) := by
      intro cp v hcpc hcplen hv hsib
      have hcpos : pos < cp := by omega
      have hcpne : cp ≠ pos := by omega
      have K1' : ∀ j, 0 < j → j ≠ cp → (j - 1) / 2 ≠ cp → ∀ x y,
          (l.set pos v)[(j - 1) / 2]? = some x → (l.set pos v)[j]? = some y →
          keyLe (qKey x) (qKey y) := by
        intro j hj hjcp hjpcp x y hx hy
        by_cases hjp : j = pos
        · subst hjp
          have h0 : 0 < j := hj
          have hppne : j ≠ (j - 1) / 2 := by omega
          rw [List.getElem?_set_ne hppne] at hx
          rw [List.getElem?_set_self hpos] at hy
          injection hy with hy
          subst hy
          exact K2 h0 cp hcpc x v hx hv
        · rw [List.getElem?_set_ne (fun h => hjp h.symm)] at hy
          by_cases hjpar : (j - 1) / 2 = pos
          · rw [hjpar, List.getElem?_set_self hpos] at hx
            injection hx with hx
            subst hx
            have hchild : j = 2 * pos + 1 ∨ j = 2 * pos + 2 := by omega
            exact hsib j hchild hjcp y hy
          · rw [List.getElem?_set_ne (fun h => hjpar h.symm)] at hx
            exact K1 j hj hjp hjpar x y hx hy
      have K2' : 0 < cp → ∀ d, (d = 2 * cp + 1 ∨ d = 2 * cp + 2) → ∀ g y,
          (l.set pos v)[(cp - 1) / 2]? = some g → (l.set pos v)[d]? = some y →
          keyLe (qKey g) (qKey y) := by
        intro _ d hd g y hg hy
        have hpar : (cp - 1) / 2 = pos := by omega
        rw [hpar, List.getElem?_set_self hpos] at hg
        injection hg with hg
        subst hg
        have hdne : d ≠ pos := by omega
        rw [List.getElem?_set_ne (fun h => hdne h.symm)] at hy
        refine K1 d (by omega) hdne (by omega) v y ?_ hy
        rw [show (d - 1) / 2 = cp by omega]
        exact hv
      have M' : ∀ j, j ≠ cp → ∀ x, (l.set pos v)[j]? = some x →
          qKey x ≠ qKey newitem := by
        intro j hjcp x hx
        by_cases hjp : j = pos
        · subst hjp
          rw [List.getElem?_set_self hpos] at hx
          injection hx with hx
          subst hx
          exact M cp hcpne v hv
        · rw [List.getElem?_set_ne (fun h => hjp h.symm)] at hx
          exact M j hjp x hx
      have N' : ∀ i j, cp < i → i < j → ∀ x y, (l.set pos v)[i]? = some x →
          (l.set pos v)[j]? = some y → qKey x ≠ qKey y := by
        intro i j hi hij x y hx hy
        rw [List.getElem?_set_ne (by omega)] at hx
        rw [List.getElem?_set_ne (by omega)] at hy
        exact N i j (by omega) hij x y hx hy
      obtain ⟨l'', hrun, hheap, hlen, hmset⟩ :=
        ih (l.set pos v) cp (by rw [l.length_set]; omega)
          (by rw [l.length_set]; exact hcplen) K1' K2' M' N'
      rw [l.length_set] at hrun hlen
      refine ⟨l'', hrun, hheap, hlen, ?_⟩
      intro x hx
      have hvcp : (l.set pos v)[cp]? = some v := by
        rw [List.getElem?_set_ne (fun h => hcpne h.symm)]
        exact hv
      have hA := hmset v hvcp
      have hB := set_coe_cons v hx
      have hchain : v ::ₘ x ::ₘ (l'' : Multiset (QEntry E)) =
          v ::ₘ newitem ::ₘ (l : Multiset (QEntry E)) := by
        calc v ::ₘ x ::ₘ (l'' : Multiset (QEntry E))
            = x ::ₘ v ::ₘ (l'' : Multiset (QEntry E)) := Multiset.cons_swap _ _ _
          _ = x ::ₘ newitem ::ₘ ((l.set pos v : List (QEntry E)) : Multiset (QEntry E)) := by
              rw [hA]
          _ = newitem ::ₘ x ::ₘ ((l.set pos v : List (QEntry E)) : Multiset (QEntry E)) :=
              Multiset.cons_swap _ _ _
          _ = newitem ::ₘ v ::ₘ (l : Multiset (QEntry E)) := by rw [hB]
          _ = v ::ₘ newitem ::ₘ (l : Multiset (QEntry E)) := Multiset.cons_swap _ _ _
      exact (Multiset.cons_inj_right v).mp hchain
    by_cases hc : 2 * pos + 1 < l.length
    · rw [if_pos hc]
      obtain ⟨c, hcget⟩ : ∃ c, l[2 * pos + 1]? = some c :=
        ⟨_, List.getElem?_eq_getElem hc⟩
      by_cases hr : 2 * pos + 1 + 1 < l.length
      · rw [if_pos hr]
        obtain ⟨r, hrget⟩ : ∃ r, l[2 * pos + 1 + 1]? = some r :=
          ⟨_, List.getElem?_eq_getElem hr⟩
        have hkne : qKey c ≠ qKey r :=
          N (2 * pos + 1) (2 * pos + 1 + 1) (by omega) (by omega) c r hcget hrget
        have hcmp : entLt c r = .ok (decide (keyLt (qKey c) (qKey r))) :=
          entLt_of_key_ne hkne
        rw [hcget, hrget]
        dsimp only
        rw [hcmp]
        by_cases hlt : keyLt (qKey c) (qKey r)
        · rw [decide_eq_true hlt]
          refine step (2 * pos + 1) c (Or.inl rfl) hc hcget ?_
          intro s hs hsne y hy
          have hsr : s = 2 * pos + 1 + 1 := by omega
          rw [hsr, hrget] at hy
          injection hy with hy
          subst hy
          exact keyLe_of_keyLt hlt
        · rw [decide_eq_false hlt]
          refine step (2 * pos + 1 + 1) r (Or.inr (by omega)) hr hrget ?_
          intro s hs hsne y hy
          have hsc : s = 2 * pos + 1 := by omega
          rw [hsc, hcget] at hy
          injection hy with hy
          subst hy
          exact keyLe_of_keyLt (keyLt_flip_of_not hkne hlt)
      · rw [if_neg hr, hcget]
        refine step (2 * pos + 1) c (Or.inl rfl) hc hcget ?_
        intro s hs hsne y hy
        have hsr : s = 2 * pos + 2 := by omega
        have : l[s]? = none := List.getElem?_eq_none (by omega)
        rw [this] at hy
        exact Option.noConfusion hy
    · rw [if_neg hc]
      have hj1 : ∀ j, 0 < j → j ≠ pos → ∀ x y,
          (l.set pos newitem)[(j - 1) / 2]? = some x →
          (l.set pos newitem)[j]? = some y → keyLe (qKey x) (qKey y) := by
        intro j hj hjp x y hx hy
        rw [List.getElem?_set_ne (fun h => hjp h.symm)] at hy
        have hjlen : j < l.length := (List.getElem?_eq_some.mp hy).1
        have hjpar : (j - 1) / 2 ≠ pos := by omega
        rw [List.getElem?_set_ne (fun h => hjpar h.symm)] at hx
        exact K1 j hj hjp hjpar x y hx hy
      have hj3 : ∀ d, (d = 2 * pos + 1 ∨ d = 2 * pos + 2) → ∀ y : QEntry E,
          (l.set pos newitem)[d]? = some y → False := by
        intro d hd y hy
        have : (l.set pos newitem)[d]? = none := by
          apply List.getElem?_eq_none
          rw [l.length_set]
          omega
        rw [this] at hy
        exact Option.noConfusion hy
      have hM0 : ∀ j, j < pos → ∀ x, (l.set pos newitem)[j]? = some x →
          qKey x ≠ qKey newitem := by
        intro j hj x hx
        rw [List.getElem?_set_ne (by omega)] at hx
        exact M j (by omega) x hx
      obtain ⟨l', hrun, hheap, hlen, hmset⟩ :=
        siftdownGo_spec newitem pos (l.set pos newitem) pos le_rfl
          (by rw [l.length_set]; exact hpos) hj1
          (fun _ d hd g y _ hy => (hj3 d hd y hy).elim)
          (fun d hd y hy => (hj3 d hd y hy).elim) hM0
      rw [l.length_set] at hlen
      refine ⟨l', hrun, hheap, hlen, ?_⟩
      intro x hx
      have hnew : (l.set pos newitem)[pos]? = some newitem :=
        List.getElem?_set_self hpos
      have hA := hmset newitem hnew
      have hl'eq : (l' : Multiset (QEntry E)) =
          ((l.set pos newitem : List (QEntry E)) : Multiset (QEntry E)) :=
        (Multiset.cons_inj_right newitem).mp hA
      rw [hl'eq]
      exact set_coe_cons newitem hx

/-- Helper: in a heap, the root entry has the least key. -/
theorem isHeap_root_le {E : Type} {l : List (QEntry E)} (H : IsHeap l) :
    ∀ (j : ℕ) (y x : QEntry E), l[0]? = some x → l[j]? = some y →
      keyLe (qKey x) (qKey y) := by
  intro j
  induction j using Nat.strong_induction_on with
  | _ j ih =>
    intro y x h0 hj
    rcases Nat.eq_zero_or_pos j with hj0 | hjpos
    · subst hj0
      rw [h0] at hj
      injection hj with hj
      subst hj
      exact keyLe_refl _
    · have hjlen : j < l.length := (List.getElem?_eq_some.mp hj).1
      have hplen : (j - 1) / 2 < l.length := by omega
      obtain ⟨g, hg⟩ : ∃ g, l[(j - 1) / 2]? = some g :=
        ⟨_, List.getElem?_eq_getElem hplen⟩
      exact keyLe_trans (ih ((j - 1) / 2) (by omega) g x h0 hg) (H j hjpos g y hg hj)

/-- Helper: `heappop` on a nonempty heap with pairwise-distinct keys
succeeds, returns the root — a least-key entry — and leaves a heap with the
remaining entries. -/
theorem heappop_spec {E : Type} [DecidableEq E] (l : List (QEntry E)) (hne : l ≠ [])
    (H : IsHeap l) (D : DistinctKeys l) :
    ∃ m l₂, heappop l = .ok (m, l₂) ∧ l[0]? = some m ∧
      (∀ (j : ℕ) (y : QEntry E), l[j]? = some y → keyLe (qKey m) (qKey y)) ∧
      IsHeap l₂ ∧ DistinctKeys l₂ ∧ l₂.length + 1 = l.length ∧
      (m ::ₘ (l₂ : Multiset (QEntry E))) = (l : Multiset (QEntry E)) := by
  obtain ⟨init, last, hpop, heq⟩ := popLast_eq l hne
  cases init with
  | nil =>
    subst heq
    refine ⟨last, [], rfl, rfl, ?_, ?_, List.nodup_nil, rfl, rfl⟩
    · intro j y hj
      have hjlen : j < [last].length := (List.getElem?_eq_some.mp hj).1
      have hj0 : j = 0 := by simpa using hjlen
      subst hj0
      injection hj with hj
      subst hj
      exact keyLe_refl _
    · intro j hj x y hx hy
      simp at hy
  | cons s0 stail =>
    have hslen : 0 < (s0 :: stail).length := by simp
    have hreads : ∀ i, i < (s0 :: stail).length →
        l[i]? = (s0 :: stail)[i]? := by
      intro i hi
      rw [heq, List.getElem?_append, if_pos hi]
    have hlast : l[(s0 :: stail).length]? = some last := by
      rw [heq]
      exact List.getElem?_concat_length _ _
    have hllen : l.length = (s0 :: stail).length + 1 := by rw [heq]; simp
    have hK1 : ∀ j, 0 < j → j ≠ 0 → (j - 1) / 2 ≠ 0 → ∀ x y,
        ((s0 :: stail).set 0 last)[(j - 1) / 2]? = some x →
        ((s0 :: stail).set 0 last)[j]? = some y → keyLe (qKey x) (qKey y) := by
      intro j hj _ hjpar x y hx hy
      rw [List.getElem?_set_ne (fun h => hjpar h.symm)] at hx
      rw [List.getElem?_set_ne (by omega)] at hy
      have hjlen : j < (s0 :: stail).length := (List.getElem?_eq_some.mp hy).1
      rw [← hreads _ (by omega)] at hx
      rw [← hreads _ hjlen] at hy
      exact H j hj x y hx hy
    have hM : ∀ j, j ≠ 0 → ∀ x, ((s0 :: stail).set 0 last)[j]? = some x →
        qKey x ≠ qKey last := by
      intro j hj x hx
      rw [List.getElem?_set_ne (fun h => hj h.symm)] at hx
      have hjlen : j < (s0 :: stail).length := (List.getElem?_eq_some.mp hx).1
      rw [← hreads _ hjlen] at hx
      exact D.ne_of_get (by omega) hx hlast
    have hN : ∀ i j, 0 < i → i < j → ∀ x y,
        ((s0 :: stail).set 0 last)[i]? = some x →
        ((s0 :: stail).set 0 last)[j]? = some y → qKey x ≠ qKey y := by
      intro i j hi hij x y hx hy
      rw [List.getElem?_set_ne (by omega)] at hx
      rw [List.getElem?_set_ne (by omega)] at hy
      have hilen : i < (s0 :: stail).length := (List.getElem?_eq_some.mp hx).1
      have hjlen : j < (s0 :: stail).length := (List.getElem?_eq_some.mp hy).1
      rw [← hreads _ hilen] at hx
      rw [← hreads _ hjlen] at hy
      exact D.ne_of_get (by omega) hx hy
    obtain ⟨l₂, hrun, hheap, hlen, hmset⟩ :=
      siftupGo_spec last ((s0 :: stail).length) ((s0 :: stail).set 0 last) 0
        (by rw [List.length_set]; omega) (by rw [List.length_set]; exact hslen)
        hK1 (fun h => absurd h (lt_irrefl 0)) hM hN
    rw [List.length_set] at hrun hlen
    have hs0 : (s0 :: stail)[0]? = some s0 := List.getElem?_cons_zero
    have hl0 : l[0]? = some s0 := by rw [hreads 0 hslen]; exact hs0
    have hml : (l₂ : Multiset (QEntry E)) =
        (((s0 :: stail).set 0 last : List (QEntry E)) : Multiset (QEntry E)) := by
      have hroot : ((s0 :: stail).set 0 last)[0]? = some last :=
        List.getElem?_set_self hslen
      exact (Multiset.cons_inj_right last).mp (hmset last hroot)
    have hfinal : (s0 ::ₘ (l₂ : Multiset (QEntry E))) = (l : Multiset (QEntry E)) := by
      rw [hml, set_coe_cons last hs0, heq,
        Multiset.coe_eq_coe.mpr (List.perm_append_singleton last (s0 :: stail))]
      exact Multiset.cons_coe _ _
    refine ⟨s0, l₂, ?_, hl0, ?_, hheap, ?_, by omega, hfinal⟩
    · unfold heappop
      rw [hpop]
      dsimp only
      rw [hrun]
    · intro j y hj
      exact isHeap_root_le H j y s0 hl0 hj
    · have hDm : ((l.map qKey : List (Nat × ℚ)) : Multiset (Nat × ℚ)).Nodup :=
        (Multiset.coe_nodup).mpr D
      have hle : (l₂ : Multiset (QEntry E)) ≤ (l : Multiset (QEntry E)) := by
        rw [← hfinal]
        exact Multiset.le_cons_self _ _
      have hmaple : ((l₂ : Multiset (QEntry E)).map qKey) ≤
          ((l : Multiset (QEntry E)).map qKey) := Multiset.map_le_map hle
      rw [Multiset.map_coe, Multiset.map_coe] at hmaple
      exact (Multiset.coe_nodup).mp (Multiset.nodup_of_le hmaple hDm)

/-- Helper: a sequence of `put`s whose `(priority, timestamp)` keys are
pairwise distinct (among themselves and against the queue) all succeed and
build a heap holding exactly the accumulated entries. -/
theorem runPushes_spec {E : Type} [DecidableEq E] :
    ∀ (xs q : List (QEntry E)), IsHeap q → ((q ++ xs).map qKey).Nodup →
    ∃ h, runPushes q xs = .ok h ∧ IsHeap h ∧ DistinctKeys h ∧
      (h : Multiset (QEntry E)) = (q : Multiset (QEntry E)) + (xs : Multiset (QEntry E)) := by
  intro xs
  induction xs with
  | nil =>
    intro q Hq JD
    refine ⟨q, rfl, Hq, ?_, by simp⟩
    simpa using JD
  | cons x rest ih =>
    intro q Hq JD
    have hD1 : DistinctKeys (q ++ [x]) := by
      refine List.Nodup.sublist (List.Sublist.map qKey ?_) JD
      exact (List.append_sublist_append_left q).mpr
        (List.cons_sublist_cons.mpr (List.nil_sublist rest))
    obtain ⟨q', hpush, Hq', Dq', hlen', hmq'⟩ := heappush_spec q x Hq hD1
    have hperm : (q' ++ rest).Perm (q ++ x :: rest) := by
      have h1 : q'.Perm (q ++ [x]) := by
        rw [← Multiset.coe_eq_coe, hmq',
          Multiset.coe_eq_coe.mpr (List.perm_append_singleton x q)]
        exact Multiset.cons_coe x q
      have h2 := h1.append_right rest
      rwa [List.append_assoc, List.singleton_append] at h2
    have JD' : ((q' ++ rest).map qKey).Nodup :=
      ((hperm.map qKey).nodup_iff).mpr JD
    obtain ⟨h, hrun, Hh, Dh, hmh⟩ := ih q' Hq' JD'
    refine ⟨h, ?_, Hh, Dh, ?_⟩
    · show (match heappush q x with
        | Except.error e => Except.error e
        | Except.ok q2 => runPushes q2 rest) = Except.ok h
      rw [hpush]
      exact hrun
    · rw [hmh, hmq']
      rw [Multiset.cons_add, ← Multiset.add_cons, Multiset.cons_coe]

/-- Helper: draining a heap with pairwise-distinct keys by repeated
`heappop` succeeds, returns all entries, and returns them in strictly
increasing `(priority, timestamp)` order. -/
theorem drainAux_spec {E : Type} [DecidableEq E] :
    ∀ (n : ℕ) (l : List (QEntry E)), l.length ≤ n → IsHeap l → DistinctKeys l →
    ∃ out, drainAux n l = .ok out ∧
      (out : Multiset (QEntry E)) = (l : Multiset (QEntry E)) ∧
      List.Pairwise (fun a b => keyLt (qKey a) (qKey b)) out := by
  intro n
  induction n with
  | zero =>
    intro l hlen _ _
    have hl : l = [] := by
      cases l with
      | nil => rfl
      | cons a t => simp at hlen
    subst hl
    exact ⟨[], rfl, rfl, List.Pairwise.nil⟩
  | succ n ih =>
    intro l hlen H D
    cases l with
    | nil => exact ⟨[], rfl, rfl, List.Pairwise.nil⟩
    | cons a t =>
      obtain ⟨m, l₂, hpop, hget, hmin, Hl₂, Dl₂, hlen₂, hmset⟩ :=
        heappop_spec (a :: t) (by simp) H D
      obtain ⟨out, hdrain, hout, hpair⟩ := ih l₂
        (by simp only [List.length_cons] at hlen₂ hlen; omega) Hl₂ Dl₂
      refine ⟨m :: out, ?_, ?_, ?_⟩
      · show (match heappop (a :: t) with
          | Except.error e => Except.error e
          | Except.ok (m, h2) =>
            match drainAux n h2 with
            | Except.error e => Except.error e
            | Except.ok out => Except.ok (m :: out)) = Except.ok (m :: out)
        rw [hpop]
        dsimp only
        rw [hdrain]
      · rw [← Multiset.cons_coe, hout, hmset]
      · rw [List.pairwise_cons]
        refine ⟨?_, hpair⟩
        intro b hb
        have hbl₂ : b ∈ l₂ := by
          rw [← Multiset.mem_coe, hout] at *
          rw [Multiset.mem_coe] at hb
          rw [← Multiset.mem_coe, hout] at hb
          exact Multiset.mem_coe.mp hb
        have hbl : b ∈ (a :: t) := by
          rw [← Multiset.mem_coe, ← hmset]
          exact Multiset.mem_cons.mpr (Or.inr (Multiset.mem_coe.mpr hbl₂))
        obtain ⟨j, hj⟩ := List.getElem?_of_mem hbl
        have hle : keyLe (qKey m) (qKey b) := hmin j b hj
        have hkeyne : qKey m ≠ qKey b := by
          have hDm : (Multiset.map qKey ((a :: t : List (QEntry E)) :
              Multiset (QEntry E))).Nodup := by
            rw [Multiset.map_coe]
            exact (Multiset.coe_nodup).mpr D
          rw [← hmset, Multiset.map_cons, Multiset.nodup_cons] at hDm
          intro hcontra
          exact hDm.1 (hcontra ▸ Multiset.mem_map_of_mem qKey (Multiset.mem_coe.mpr hbl₂))
        rcases hle with hlt | heqk
        · exact hlt
        · exact absurd heqk hkeyne

/-- Claim C1, counterexample: two `put`s with equal priority class 2 whose
wall-clock timestamps are NOT monotone (10, then 5 — e.g. the clock was
stepped back between the pushes).  The queue tie-breaks on the stored
`time.time()` value, not on arrival order, so the drain returns the
second-pushed event (entry `(2, 5, 1)`) before the first-pushed one —
dequeue order among the equal priority class differs from push order,
refuting "FIFO regardless of the wall-clock timestamps". -/
theorem put_fifo_counterexample :
    runPushes (E := Nat) [] [(2, 10, 0), (2, 5, 1)] = .ok [(2, 5, 1), (2, 10, 0)] ∧
    drainAux (E := Nat) 2 [(2, 5, 1), (2, 10, 0)] = .ok [(2, 5, 1), (2, 10, 0)] ∧
    ([(2, 5, 1), (2, 10, 0)] : List (QEntry Nat)) ≠ [(2, 10, 0), (2, 5, 1)] := by
  refine ⟨rfl, rfl, by decide⟩

/-- Claim C1 (amended): for every finite sequence of pushes whose
wall-clock timestamps are strictly increasing in push order (the monotone
clock the implementation relies on — with timestamp ties or a
backwards-stepping clock the behaviour breaks, see the counterexample),
every push succeeds, draining the queue succeeds, and the drained sequence
is a permutation of the pushes ordered by ascending priority class with
ties in strict timestamp order — which, timestamps being strictly
increasing along the push sequence, is exactly push (FIFO) order. -/
theorem queue_pop_priority_fifo_of_mono_timestamps {E : Type} [DecidableEq E]
    (pushes : List (QEntry E))
    (hts : List.Pairwise (fun a b => a.2.1 < b.2.1) pushes) :
    ∃ h out, runPushes [] pushes = .ok h ∧ drainAux h.length h = .ok out ∧
      out.Perm pushes ∧
      List.Pairwise (fun a b => a.1 < b.1 ∨ (a.1 = b.1 ∧ a.2.1 < b.2.1)) out := by
  have hnil : IsHeap (E := E) [] := by
    intro j hj x y hx hy
    simp at hy
  have JD : ((([] : List (QEntry E)) ++ pushes).map qKey).Nodup := by
    rw [List.nil_append]
    refine List.Pairwise.map qKey ?_ hts
    intro a b hab
    show qKey a ≠ qKey b
    intro hk
    have : a.2.1 = b.2.1 := congrArg Prod.snd hk
    rw [this] at hab
    exact lt_irrefl _ hab
  obtain ⟨h, hrun, Hh, Dh, hmh⟩ := runPushes_spec pushes [] hnil JD
  have hmh' : (h : Multiset (QEntry E)) = (pushes : Multiset (QEntry E)) := by
    simpa using hmh
  have hperm : h.Perm pushes := Multiset.coe_eq_coe.mp hmh'
  obtain ⟨out, hdrain, hout, hpair⟩ := drainAux_spec h.length h le_rfl Hh Dh
  refine ⟨h, out, hrun, hdrain, ?_, ?_⟩
  · exact (Multiset.coe_eq_coe.mp (hout.trans hmh'))
  · exact hpair.imp (fun hab => hab)

/-- Claim C1 witness: three pushes (priorities 2, 1, 2) at increasing
timestamps drain as priority 1 first, then the two priority-2 entries in
push order. -/
theorem queue_pop_priority_fifo_witness :
    List.Pairwise (fun a b : QEntry Nat => a.2.1 < b.2.1)
      [(2, 1, 0), (1, 2, 1), (2, 3, 2)] ∧
    (∃ h out, runPushes (E := Nat) [] [(2, 1, 0), (1, 2, 1), (2, 3, 2)] = .ok h ∧
      drainAux h.length h = .ok out ∧
      out.Perm [(2, 1, 0), (1, 2, 1), (2, 3, 2)] ∧
      List.Pairwise (fun a b => a.1 < b.1 ∨ (a.1 = b.1 ∧ a.2.1 < b.2.1)) out) :=
  ⟨by decide,
    queue_pop_priority_fifo_of_mono_timestamps [(2, 1, 0), (1, 2, 1), (2, 3, 2)]
      (by decide)⟩

/-- Claim C5, counterexample: a push whose priority class AND wall-clock
timestamp both equal those of an entry already in the queue (coarse clock
resolution makes equal `time.time()` readings possible), with a different
event dict.  CPython's tuple comparison then falls through to `<` on the
two dicts and raises `TypeError`: `put` fails.  (The claim explicitly
covers pushes whose priority class collides with a queued entry.) -/
theorem put_raises_on_tie_counterexample :
    put (E := Nat) [] 2 5 0 = .ok [(2, 5, 0)] ∧
    put (E := Nat) [(2, 5, 0)] 2 5 1 = .error () :=
  ⟨rfl, rfl⟩

/-- Claim C5 (amended): `put` never blocks — it is synchronous, containing
no `await` — and never fails provided no queued entry shares the new
entry's `(priority, timestamp)` key (in particular the comparison never
reaches the unorderable event dicts); equal priority classes alone, with
distinct timestamps, are harmless.  A full key tie, however, raises
`TypeError` (see the counterexample). -/
theorem put_succeeds_of_fresh_key {E : Type} [DecidableEq E]
    (q : List (QEntry E)) (p : Nat) (t : ℚ) (e : E)
    (H : IsHeap q) (D : DistinctKeys (q ++ [(p, t, e)])) :
    ∃ q', put q p t e = .ok q' ∧ IsHeap q' ∧
      (q' : Multiset (QEntry E)) = (p, t, e) ::ₘ (q : Multiset (QEntry E)) := by
  obtain ⟨q', hpush, Hq', Dq', hlen, hm⟩ := heappush_spec q (p, t, e) H D
  exact ⟨q', hpush, Hq', hm⟩

/-- Claim C5 witness: a push of priority 2 onto a queue already holding a
priority-2 entry with a different timestamp succeeds. -/
theorem put_succeeds_of_fresh_key_witness :
    IsHeap (E := Nat) [(2, 1, 0)] ∧ DistinctKeys ([(2, 1, 0)] ++ [(2, 5, 1)]) ∧
    (∃ q', put (E := Nat) [(2, 1, 0)] 2 5 1 = .ok q' ∧ IsHeap q' ∧
      (q' : Multiset (QEntry Nat)) =
        ((2, 5, 1) : QEntry Nat) ::ₘ ([(2, 1, 0)] : List (QEntry Nat))) := by
  have hheap : IsHeap (E := Nat) [(2, 1, 0)] := by
    intro j hj x y hx hy
    have : j < 1 := by
      have := (List.getElem?_eq_some.mp hy).1
      simpa using this
    omega
  have hD : DistinctKeys (E := Nat) ([(2, 1, 0)] ++ [(2, 5, 1)]) := by
    unfold DistinctKeys
    decide
  exact ⟨hheap, hD, put_succeeds_of_fresh_key [(2, 1, 0)] 2 5 1 hheap hD⟩

end ForexAgent
